import Mathlib

/-!
Verification of the fiber scheduler / async task bridge (rust_wren).

The definitions below are shallow embeddings of the Rust source:
* `scheduleTask`, `nextItem`, `drainAll`, `runAsyncLoop` model
  `Scheduler::schedule_task`, `Scheduler::next_item` and
  `Scheduler::run_async_loop` from src/modules/scheduler.rs
  (the queue is a `Vec`: `insert(0, t)` at the front, `pop()` from the back);
* `Task` models a pending work item by the tasks its continuation will
  transitively schedule;
* `newFromResult`, `_resume` model `InterpretResultErrorKind::new_from_result`
  and the `_resume` helper;
* `signatureArity` / `newFromSignature` model `CallHandle::new_from_signature`;
* `contextCall` models `Context::call`;
* `get_variable` models `Context::get_variable`;
* the `SchedOp` action model and the handle-event traces model the scheduler
  operations' effects on the barrier flag, the queue, and VM handles.
-/

namespace RustWren

/-! ## Task queue primitives (`Scheduler::schedule_task` / `Scheduler::next_item`) -/

/-- `Scheduler::schedule_task`: `self.queue.insert(0, future)`. -/
def scheduleTask {α : Type} (queue : List α) (t : α) : List α :=
  List.insertNth 0 t queue

/-- `Scheduler::next_item`: `self.queue.pop()` — removes and returns the last
element of the `Vec`, or `None` when it is empty.  Returns the popped item and
the remaining queue. -/
def nextItem {α : Type} (queue : List α) : Option α × List α :=
  match queue.getLast? with
  | none => (none, queue)
  | some t => (some t, queue.dropLast)

theorem scheduleTask_eq_cons {α : Type} (queue : List α) (t : α) :
    scheduleTask queue t = t :: queue := rfl

theorem nextItem_some_length {α : Type} {queue q : List α} {t : α}
    (h : nextItem queue = (some t, q)) : q.length < queue.length := by
  unfold nextItem at h
  cases hq : queue.getLast? with
  | none => rw [hq] at h; simp at h
  | some a =>
    rw [hq] at h
    cases queue with
    | nil => simp at hq
    | cons b bs =>
      obtain ⟨-, h2⟩ := Prod.mk.injEq .. ▸ h
      have h2' : q = (b :: bs).dropLast := h2.symm
      subst h2'
      simp [List.length_dropLast]

/-- The `while let Some(future) = next` drain loop of `run_async_loop`:
keeps calling `next_item` until it returns `None`, collecting the items in
pop order; also returns the remaining queue. -/
def drainAll {α : Type} (queue : List α) : List α × List α :=
  match h : nextItem queue with
  | (none, q) => ([], q)
  | (some t, q) =>
    let r := drainAll q
    (t :: r.1, r.2)
termination_by queue.length
decreasing_by exact nextItem_some_length h

theorem nextItem_concat {α : Type} (l : List α) (a : α) :
    nextItem (l ++ [a]) = (some a, l) := by
  simp [nextItem, List.getLast?_concat, List.dropLast_concat]

theorem nextItem_nil {α : Type} : nextItem ([] : List α) = (none, []) := by
  simp [nextItem]

/-- Draining pops the queue from the back: the items come out in reverse of
the list order (oldest scheduled first), and the queue is left empty. -/
theorem drainAll_eq {α : Type} (q : List α) :
    drainAll q = (q.reverse, ([] : List α)) := by
  induction q using List.reverseRecOn with
  | nil =>
    rw [drainAll]
    split
    next q' h => rw [nextItem_nil] at h; injection h with h1 h2; subst h2; rfl
    next t q' h => rw [nextItem_nil] at h; injection h with h1 h2; simp at h1
  | append_singleton l a ih =>
    rw [drainAll]
    split
    next q' h => rw [nextItem_concat] at h; injection h with h1 h2; simp at h1
    next t q' h =>
      rw [nextItem_concat] at h
      injection h with h1 h2
      injection h1 with h1
      subst h1; subst h2
      rw [ih]; simp

theorem nextItem_fst_none_iff {α : Type} (q : List α) :
    (nextItem q).1 = none ↔ q = [] := by
  cases q with
  | nil => simp [nextItem]
  | cons a as =>
    simp only [nextItem]
    cases hq : (a :: as).getLast? with
    | none =>
      exfalso
      have : a :: as ≠ [] := by simp
      cases as with
      | nil => simp [List.getLast?] at hq
      | cons b bs => rw [List.getLast?_cons_cons] at hq; simp_all [nextItem]
    | some t => simp

theorem foldl_scheduleTask {α : Type} (ts q : List α) :
    List.foldl scheduleTask q ts = ts.reverse ++ q := by
  induction ts generalizing q with
  | nil => simp
  | cons a l ih =>
    simp only [List.foldl_cons, scheduleTask_eq_cons, ih, List.reverse_cons]
    simp

/-! ## Tasks and the run loop (`Scheduler::run_async_loop`)

A `Task` is a pending asynchronous work item, abstracted by the list of tasks
that its continuation, when it runs, will hand to `schedule_task` (in the
order of those nested `schedule_task` calls).  The computation itself has no
observable effect on the scheduler other than this.  -/

inductive Task : Type where
  | mk (spawns : List Task) : Task

/-- The tasks a task's continuation schedules when the task is run. -/
def Task.spawns : Task → List Task
  | .mk s => s

/-- Number of nodes of a task tree (the task together with everything it will
transitively spawn). -/
def Task.size : Task → Nat
  | .mk s => 1 + (s.attach.map fun x => Task.size x.1).sum
decreasing_by
  have := List.sizeOf_lt_of_mem x.2
  simp only [Task.mk.sizeOf_spec]
  omega

/-- Total node count of a list of task trees. -/
def sizeL (l : List Task) : Nat := (l.map Task.size).sum

theorem Task.size_eq (s : List Task) : (Task.mk s).size = 1 + sizeL s := by
  rw [Task.size, sizeL]
  congr 1
  have h1 : s.attach.map (fun x => Task.size x.1)
      = (s.attach.map Subtype.val).map Task.size := by
    rw [List.map_map]; rfl
  rw [h1, List.attach_map_subtype_val]

theorem Task.size_pos (t : Task) : 0 < t.size := by
  cases t with
  | mk s => rw [Task.size_eq]; omega

theorem sizeL_nil : sizeL [] = 0 := rfl

theorem sizeL_cons (t : Task) (l : List Task) :
    sizeL (t :: l) = t.size + sizeL l := by
  simp [sizeL]

theorem sizeL_append (a b : List Task) : sizeL (a ++ b) = sizeL a + sizeL b := by
  simp [sizeL]

theorem sizeL_reverse (l : List Task) : sizeL l.reverse = sizeL l := by
  rw [sizeL, sizeL, List.map_reverse, List.sum_reverse]

theorem sizeL_perm {l l' : List Task} (h : List.Perm l l') : sizeL l = sizeL l' := by
  exact List.Perm.sum_eq (List.Perm.map Task.size h)

/-- One node per task: the node count of a list of tasks is the number of
tasks plus the node count of everything they spawn. -/
theorem sizeL_eq_length_add_bind (l : List Task) :
    sizeL l = l.length + sizeL (l.flatMap Task.spawns) := by
  induction l with
  | nil => simp [sizeL]
  | cons t ts ih =>
    cases t with
    | mk s =>
      rw [sizeL_cons, Task.size_eq, List.flatMap_cons, sizeL_append, ih]
      simp [Task.spawns]
      omega

/-- Running one task: its continuation hands each spawned task to
`schedule_task`, in order. -/
def runTask (q : List Task) (t : Task) : List Task :=
  t.spawns.foldl scheduleTask q

/-- Running all the tasks started in one pass, in the order `ran` in which
their computations complete; each enqueues its spawns onto the queue `q`. -/
def runPass (ran q : List Task) : List Task :=
  ran.foldl runTask q

theorem runTask_eq (q : List Task) (t : Task) :
    runTask q t = t.spawns.reverse ++ q := by
  rw [runTask, foldl_scheduleTask]

theorem runPass_perm (ran q : List Task) :
    List.Perm (runPass ran q) (ran.flatMap Task.spawns ++ q) := by
  induction ran generalizing q with
  | nil => simp [runPass]
  | cons t ts ih =>
    have h1 : runPass (t :: ts) q = runPass ts (t.spawns.reverse ++ q) := by
      rw [runPass, List.foldl_cons, runTask_eq]; rfl
    rw [h1, List.flatMap_cons]
    refine List.Perm.trans (ih _) ?_
    have h2 : List.Perm (ts.flatMap Task.spawns ++ (t.spawns.reverse ++ q))
        ((ts.flatMap Task.spawns ++ t.spawns.reverse) ++ q) := by
      rw [List.append_assoc]
    refine h2.trans ?_
    refine List.Perm.append_right q ?_
    refine List.Perm.trans (List.perm_append_comm) ?_
    exact List.Perm.append_right _ (List.reverse_perm _)

theorem sizeL_runPass (ran q : List Task) :
    sizeL (runPass ran q) = sizeL (ran.flatMap Task.spawns) + sizeL q := by
  rw [sizeL_perm (runPass_perm ran q), sizeL_append]

/-- A completion order: `tokio` lets the computations started in one pass race
freely, so the order in which they complete (and hence in which their
continuations run) is an arbitrary permutation of the started tasks. -/
def Completion : Type := (l : List Task) → {l' : List Task // List.Perm l' l}

theorem sizeL_runPass_lt {q rest : List Task} {t : Task} {ts ran : List Task}
    (hperm : List.Perm ran (t :: ts)) (hd : drainAll q = (t :: ts, rest)) :
    sizeL (runPass ran rest) < sizeL q := by
  have he := drainAll_eq q
  rw [hd] at he
  injection he with he1 he2
  subst he2
  have hq : sizeL ran = sizeL q := by
    rw [sizeL_perm hperm, he1, sizeL_reverse]
  have hlen : 0 < ran.length := by
    rw [List.Perm.length_eq hperm]; simp
  have hsz := sizeL_eq_length_add_bind ran
  rw [sizeL_runPass, sizeL_nil]
  omega

/-- `Scheduler::run_async_loop`: repeatedly (1) drain the queue, spawning
every drained task on the executor; (2) if nothing was started, stop;
(3) wait for the started tasks, whose continuations run in completion order
`order` and schedule their spawns; (4) go to (1).
Returns the list of passes (the tasks started in each pass, in spawn order)
together with the final queue.  -/
def runAsyncLoop (order : Completion) (q : List Task) :
    List (List Task) × List Task :=
  match hd : drainAll q with
  | ([], rest) => ([], rest)
  | (t :: ts, rest) =>
    let ran := (order (t :: ts)).1
    let r := runAsyncLoop order (runPass ran rest)
    ((t :: ts) :: r.1, r.2)
termination_by sizeL q
decreasing_by exact sizeL_runPass_lt (order (t :: ts)).2 hd

/-- The identity completion order (tasks complete in spawn order). -/
def permId : Completion := fun l => ⟨l, List.Perm.refl l⟩

theorem runAsyncLoop_nil (order : Completion) :
    runAsyncLoop order [] = ([], []) := by
  rw [runAsyncLoop]
  split
  next rest hd =>
    rw [drainAll_eq] at hd; injection hd with h1 h2; rw [← h2]
  next t ts rest hd =>
    rw [drainAll_eq] at hd; injection hd with h1 h2; simp at h1

theorem runAsyncLoop_cons {order : Completion} {q : List Task} {t : Task}
    {ts : List Task} (h : q.reverse = t :: ts) :
    runAsyncLoop order q =
      ((t :: ts) :: (runAsyncLoop order (runPass (order (t :: ts)).1 [])).1,
        (runAsyncLoop order (runPass (order (t :: ts)).1 [])).2) := by
  conv_lhs => rw [runAsyncLoop]
  split
  next rest hd =>
    rw [drainAll_eq] at hd; injection hd with h1 h2
    rw [h] at h1; simp at h1
  next t' ts' rest hd =>
    rw [drainAll_eq] at hd; injection hd with h1 h2
    rw [h] at h1
    injection h1 with e1 e2
    subst e1; subst e2
    rw [← h2]

theorem runAsyncLoop_next_lt {order : Completion} {q : List Task} {t : Task}
    {ts : List Task} (h : q.reverse = t :: ts) :
    sizeL (runPass (order (t :: ts)).1 []) < sizeL q := by
  refine sizeL_runPass_lt (order (t :: ts)).2 ?_
  rw [drainAll_eq, h]

/-- The final queue of the run loop is empty: `run_async_loop` only returns
once `next_item` yields `None` and no started task remains. -/
theorem runAsyncLoop_snd_eq (order : Completion) (q : List Task) :
    (runAsyncLoop order q).2 = [] := by
  generalize hn : sizeL q = n
  induction n using Nat.strong_induction_on generalizing q with
  | _ n ih =>
    subst hn
    cases hq : q.reverse with
    | nil =>
      have hqe : q = [] := by simpa using congrArg List.reverse hq
      subst hqe; rw [runAsyncLoop_nil]
    | cons t ts =>
      rw [runAsyncLoop_cons hq]
      exact ih _ (runAsyncLoop_next_lt hq) _ rfl

/-- Every task in the queue at the call is started (appears in a pass). -/
theorem mem_join_of_mem {order : Completion} {q : List Task} {t : Task}
    (ht : t ∈ q) : t ∈ (runAsyncLoop order q).1.join := by
  cases hq : q.reverse with
  | nil =>
    have hqe : q = [] := by simpa using congrArg List.reverse hq
    subst hqe; simp at ht
  | cons t' ts' =>
    rw [runAsyncLoop_cons hq]
    have : t ∈ t' :: ts' := by
      rw [← hq]; exact List.mem_reverse.mpr ht
    simp only [List.join_cons, List.mem_append]
    exact Or.inl this

/-- Everything a started task spawns is itself started in some pass. -/
theorem spawns_mem_join {order : Completion} {q : List Task} {t c : Task}
    (ht : t ∈ (runAsyncLoop order q).1.join) (hc : c ∈ t.spawns) :
    c ∈ (runAsyncLoop order q).1.join := by
  revert ht
  generalize hn : sizeL q = n
  induction n using Nat.strong_induction_on generalizing q with
  | _ n ih =>
    subst hn
    intro ht
    cases hq : q.reverse with
    | nil =>
      have hqe : q = [] := by simpa using congrArg List.reverse hq
      subst hqe
      rw [runAsyncLoop_nil] at ht
      simp at ht
    | cons t' ts' =>
      rw [runAsyncLoop_cons hq] at ht ⊢
      simp only [List.join_cons, List.mem_append] at ht ⊢
      rcases ht with h1 | h2
      · refine Or.inr ?_
        have hperm := (order (t' :: ts')).2
        have htr : t ∈ (order (t' :: ts')).1 := hperm.mem_iff.mpr h1
        have hcq : c ∈ (order (t' :: ts')).1.flatMap Task.spawns :=
          List.mem_flatMap.mpr ⟨t, htr, hc⟩
        have hcq' : c ∈ runPass (order (t' :: ts')).1 [] := by
          have hp := runPass_perm (order (t' :: ts')).1 []
          rw [List.append_nil] at hp
          exact hp.mem_iff.mpr hcq
        exact mem_join_of_mem hcq'
      · exact Or.inr (ih _ (@runAsyncLoop_next_lt order q t' ts' hq) rfl h2)

/-- C1: for every scheduler state, when `run_async_loop` returns the task
queue is empty and no spawned task is outstanding: every task in the queue at
the call, and every task transitively scheduled onto the queue by a running
task, has been started and run (appears in some pass) before the function
returns; and a call with an empty queue terminates immediately, starting
nothing. -/
theorem run_async_loop_runs_all_tasks (order : Completion) (q : List Task) :
    (runAsyncLoop order q).2 = []
    ∧ (∀ t ∈ q, t ∈ (runAsyncLoop order q).1.join)
    ∧ (∀ t ∈ (runAsyncLoop order q).1.join, ∀ c ∈ t.spawns,
        c ∈ (runAsyncLoop order q).1.join)
    ∧ runAsyncLoop order [] = ([], []) :=
  ⟨runAsyncLoop_snd_eq order q,
   fun _ ht => mem_join_of_mem ht,
   fun _ ht _ hc => spawns_mem_join ht hc,
   runAsyncLoop_nil order⟩

/-- Witness for C1 at a concrete queue: a task that spawns one nested task;
both are run. -/
theorem run_async_loop_runs_all_tasks_witness :
    Task.mk [Task.mk []] ∈ (runAsyncLoop permId [Task.mk [Task.mk []]]).1.join
    ∧ Task.mk [] ∈ (runAsyncLoop permId [Task.mk [Task.mk []]]).1.join := by
  have h := run_async_loop_runs_all_tasks permId [Task.mk [Task.mk []]]
  exact ⟨h.2.1 (Task.mk [Task.mk []]) (by simp),
    h.2.2.1 (Task.mk [Task.mk []]) (h.2.1 (Task.mk [Task.mk []]) (by simp))
      (Task.mk []) (by simp [Task.spawns])⟩

/-- Pass structure of the run loop: pass `i + 1` starts exactly the tasks
scheduled during pass `i` (up to completion order), and the loop stops after
a pass that scheduled nothing. -/
theorem runAsyncLoop_pass_succ (order : Completion) (q : List Task)
    (i : Nat) (p : List Task)
    (hp : (runAsyncLoop order q).1[i]? = some p) :
    (p.flatMap Task.spawns = [] → (runAsyncLoop order q).1.length = i + 1)
    ∧ (p.flatMap Task.spawns ≠ [] →
        ∃ p', (runAsyncLoop order q).1[i + 1]? = some p'
          ∧ List.Perm p' (p.flatMap Task.spawns)) := by
  cases hq : q.reverse with
    | nil =>
      have hqe : q = [] := by simpa using congrArg List.reverse hq
      subst hqe
      rw [runAsyncLoop_nil] at hp
      simp at hp
    | cons t' ts' =>
      rw [runAsyncLoop_cons hq] at hp ⊢
      cases i with
      | zero =>
        simp only [List.getElem?_cons_zero, Option.some.injEq] at hp
        subst hp
        constructor
        · intro hS
          have hperm := (order (t' :: ts')).2
          have hrb : List.Perm ((order (t' :: ts')).1.flatMap Task.spawns)
              ((t' :: ts').flatMap Task.spawns) := hperm.flatMap_right Task.spawns
          rw [hS] at hrb
          have hrb' : (order (t' :: ts')).1.flatMap Task.spawns = [] := hrb.eq_nil
          have hQ : runPass (order (t' :: ts')).1 [] = [] := by
            have hp2 := runPass_perm (order (t' :: ts')).1 []
            rw [List.append_nil, hrb'] at hp2
            exact hp2.eq_nil
          rw [hQ, runAsyncLoop_nil]
          simp
        · intro hS
          have hperm := (order (t' :: ts')).2
          have hrb : List.Perm ((order (t' :: ts')).1.flatMap Task.spawns)
              ((t' :: ts').flatMap Task.spawns) := hperm.flatMap_right Task.spawns
          have hQperm : List.Perm (runPass (order (t' :: ts')).1 [])
              ((t' :: ts').flatMap Task.spawns) := by
            have hp2 := runPass_perm (order (t' :: ts')).1 []
            rw [List.append_nil] at hp2
            exact hp2.trans hrb
          have hQne : runPass (order (t' :: ts')).1 [] ≠ [] := by
            intro h0
            rw [h0] at hQperm
            exact hS (hQperm.symm.eq_nil)
          cases hQr : (runPass (order (t' :: ts')).1 []).reverse with
          | nil => exact absurd (by simpa using congrArg List.reverse hQr) hQne
          | cons u us =>
            rw [runAsyncLoop_cons hQr]
            refine ⟨u :: us, by simp, ?_⟩
            have hru : List.Perm (u :: us) (runPass (order (t' :: ts')).1 []) := by
              rw [← hQr]
              exact List.reverse_perm _
            exact hru.trans hQperm
      | succ k =>
        simp only [List.getElem?_cons_succ] at hp
        have hres := runAsyncLoop_pass_succ order
          (runPass (order (t' :: ts')).1 []) k p hp
        constructor
        · intro hS
          have hl := hres.1 hS
          simp only [List.length_cons, hl]
        · intro hS
          obtain ⟨p', h1, h2⟩ := hres.2 hS
          exact ⟨p', by simpa using h1, h2⟩
termination_by sizeL q
decreasing_by exact runAsyncLoop_next_lt hq

/-- C3: a task scheduled onto the queue while the started tasks of pass `i`
are running is never started within pass `i`; it is started exactly in pass
`i + 1` (the tasks of pass `i + 1` are, up to the completion-order
permutation, precisely the tasks scheduled during pass `i`), and if pass `i`
schedules nothing the loop ends after pass `i`. -/
theorem newly_scheduled_tasks_next_pass (order : Completion) (q : List Task)
    (i : Nat) (p : List Task)
    (hp : (runAsyncLoop order q).1[i]? = some p) :
    (p.flatMap Task.spawns = [] → (runAsyncLoop order q).1.length = i + 1)
    ∧ (p.flatMap Task.spawns ≠ [] →
        ∃ p', (runAsyncLoop order q).1[i + 1]? = some p'
          ∧ List.Perm p' (p.flatMap Task.spawns)) :=
  runAsyncLoop_pass_succ order q i p hp

/-- Witness for C3 at a concrete queue: the single initial task schedules one
new task during pass 0; that task is started in pass 1. -/
theorem newly_scheduled_tasks_next_pass_witness :
    ∃ p', (runAsyncLoop permId [Task.mk [Task.mk []]]).1[0 + 1]? = some p'
      ∧ List.Perm p' ([Task.mk [Task.mk []]].flatMap Task.spawns) := by
  have hp : (runAsyncLoop permId [Task.mk [Task.mk []]]).1[0]?
      = some [Task.mk [Task.mk []]] := by
    rw [runAsyncLoop_cons
      (show ([Task.mk [Task.mk []]]).reverse = [Task.mk [Task.mk []]] from rfl)]
    simp
  exact (newly_scheduled_tasks_next_pass permId _ 0 _ hp).2 (by simp [Task.spawns])

/-- C4: the queue behaves as a FIFO queue at the
`schedule_task`/`next_item` interface: `schedule_task` adds exactly the one
given task (the `Vec` gains it at the front), repeatedly calling `next_item`
returns tasks oldest-first in schedule order, and `next_item` returns `None`
exactly when the queue is empty. -/
theorem task_queue_fifo {α : Type} (q ts : List α) (t : α) :
    scheduleTask q t = t :: q
    ∧ (drainAll (List.foldl scheduleTask q ts)).1 = (drainAll q).1 ++ ts
    ∧ ((nextItem q).1 = none ↔ q = []) := by
  refine ⟨scheduleTask_eq_cons q t, ?_, nextItem_fst_none_iff q⟩
  rw [drainAll_eq, drainAll_eq, foldl_scheduleTask]
  simp

/-! ## Interpret results and the `_resume` helper (src/wren/mod.rs,
src/modules/scheduler.rs) -/

/-- `WrenInterpretResult_WREN_RESULT_SUCCESS` (wren C enum). -/
def WREN_RESULT_SUCCESS : Nat := 0

/-- `WrenInterpretResult_WREN_RESULT_COMPILE_ERROR` (wren C enum). -/
def WREN_RESULT_COMPILE_ERROR : Nat := 1

/-- `WrenInterpretResult_WREN_RESULT_RUNTIME_ERROR` (wren C enum). -/
def WREN_RESULT_RUNTIME_ERROR : Nat := 2

/-- `InterpretResultErrorKind`: the error side of a VM entry result.
`incorrectNumberOfArgsPassed` is the variant `Context::call` uses to reject a
call whose argument count disagrees with the `CallHandle`. -/
inductive InterpretResultErrorKind : Type where
  | compile
  | runtime
  | incorrectNumberOfArgsPassed
  | unknown (kind : Nat)
deriving DecidableEq

/-- `InterpretResultErrorKind::new_from_result`: classify a raw
`WrenInterpretResult` code; `none` is success (`Ok(())`). -/
def newFromResult (result : Nat) : Option InterpretResultErrorKind :=
  if result = WREN_RESULT_COMPILE_ERROR then some InterpretResultErrorKind.compile
  else if result = WREN_RESULT_RUNTIME_ERROR then some InterpretResultErrorKind.runtime
  else if result = WREN_RESULT_SUCCESS then none
  else some (InterpretResultErrorKind.unknown result)

/-- The `_resume` helper of the scheduler module: performs `vm.call(method)`
(whose raw result is `callResult`) and panics — returns `true` — exactly on
`if let Err(InterpretResultErrorKind::Runtime) = result`. -/
def _resume (callResult : Nat) : Bool :=
  match newFromResult callResult with
  | some InterpretResultErrorKind.runtime => true
  | _ => false

/-- Counterexample for C6: a VM entry that reports a compile error (raw
result code `WREN_RESULT_COMPILE_ERROR`) is an error the VM reports during
resumption, yet `_resume` does not panic on it — it returns normally. -/
theorem resume_nonruntime_error_not_fatal :
    (∃ e, newFromResult WREN_RESULT_COMPILE_ERROR = some e)
    ∧ _resume WREN_RESULT_COMPILE_ERROR = false :=
  ⟨⟨InterpretResultErrorKind.compile, rfl⟩, rfl⟩

/-- C6 (amended): in every resumption call, all of which funnel the result of
the VM call through `_resume`, whenever the VM reports an error while the
fiber is being resumed the bridge panics exactly when that error is a
*runtime* error; other reported error kinds (compile or unknown result
codes) are not treated as fatal — the call returns normally. -/
theorem resume_panics_iff_runtime_error (callResult : Nat)
    (e : InterpretResultErrorKind)
    (he : newFromResult callResult = some e) :
    (_resume callResult = true ↔ e = InterpretResultErrorKind.runtime) := by
  unfold _resume
  rw [he]
  cases e <;> simp

/-- Witness for C6 (amended): at the concrete raw result
`WREN_RESULT_RUNTIME_ERROR` the VM reports a runtime error and `_resume`
panics. -/
theorem resume_panics_iff_runtime_error_witness :
    _resume WREN_RESULT_RUNTIME_ERROR = true :=
  (resume_panics_iff_runtime_error WREN_RESULT_RUNTIME_ERROR
    InterpretResultErrorKind.runtime rfl).mpr rfl

/-! ## Call handles (`CallHandle::new_from_signature`, `Context::call`) -/

/-- `CallHandle`: a resolved method signature together with the argument
arity recorded at construction (`argument_count`). -/
structure CallHandle : Type where
  argument_count : Nat
deriving DecidableEq

/-- `CallHandle::get_argument_count`. -/
def CallHandle.get_argument_count (h : CallHandle) : Nat :=
  h.argument_count

/-- The placeholder count of `CallHandle::new_from_signature`: iterate over
the signature's bytes, `skip_while(byte != b'(')`, keep `byte == b'_'`, and
count. -/
def signatureArity (sig : List Char) : Nat :=
  ((sig.dropWhile (fun c => !(c = '(' : Bool))).filter (fun c => (c = '_' : Bool))).length

/-- `CallHandle::new_from_signature`: builds the handle recording the counted
arity (via `new_unchecked`). -/
def newFromSignature (sig : List Char) : CallHandle :=
  { argument_count := signatureArity sig }

/-- Position of the first `'('` of the signature (`List.findIdx`; equals the
length when there is none). -/
def firstParenIdx (sig : List Char) : Nat :=
  sig.findIdx (fun c => (c = '(' : Bool))

/-- Modelled from the spec's words, to compare with the code: the number of
underscore placeholder bytes occurring at or after the first opening
parenthesis of the signature. -/
def specArity (sig : List Char) : Nat :=
  ((sig.drop (firstParenIdx sig)).filter (fun c => (c = '_' : Bool))).length

theorem dropWhile_eq_drop_firstParenIdx (sig : List Char) :
    sig.dropWhile (fun c => !(c = '(' : Bool)) = sig.drop (firstParenIdx sig) := by
  induction sig with
  | nil => rfl
  | cons c cs ih =>
    by_cases hc : c = '('
    · subst hc
      rw [List.dropWhile_cons]
      simp [firstParenIdx, List.findIdx_cons]
    · rw [List.dropWhile_cons]
      have hb : (!(c = '(' : Bool)) = true := by simp [hc]
      rw [if_pos hb]
      have hf : firstParenIdx (c :: cs) = firstParenIdx cs + 1 := by
        simp [firstParenIdx, List.findIdx_cons, hc]
      rw [hf, ih, List.drop_succ_cons]

theorem dropWhile_append_all {α : Type} {p : α → Bool} {pre rest : List α}
    (h : ∀ c ∈ pre, p c = true) :
    (pre ++ rest).dropWhile p = rest.dropWhile p := by
  induction pre with
  | nil => rfl
  | cons c cs ih =>
    rw [List.cons_append, List.dropWhile_cons, if_pos (h c (by simp))]
    exact ih fun x hx => h x (by simp [hx])

/-- C7: the arity recorded by `new_from_signature` equals the number of
underscore placeholders at or after the first `'('` of the signature;
underscores before the first `'('` are not counted, and a signature with no
`'('` yields arity 0. -/
theorem call_handle_arity_from_signature (sig pre post : List Char) :
    ((newFromSignature sig).argument_count = specArity sig)
    ∧ ('(' ∉ sig → (newFromSignature sig).argument_count = 0)
    ∧ ('(' ∉ pre →
        (newFromSignature (pre ++ '(' :: post)).argument_count
          = (post.filter fun c => (c = '_' : Bool)).length) := by
  refine ⟨?_, ?_, ?_⟩
  · show signatureArity sig = specArity sig
    rw [signatureArity, specArity, dropWhile_eq_drop_firstParenIdx]
  · intro hsig
    show signatureArity sig = 0
    rw [signatureArity]
    have hd : sig.dropWhile (fun c => !(c = '(' : Bool)) = [] := by
      rw [List.dropWhile_eq_nil_iff]
      intro x hx
      simp only [Bool.not_eq_true']
      exact decide_eq_false fun hxx => hsig (hxx ▸ hx)
    rw [hd]
    rfl
  · intro hpre
    show signatureArity (pre ++ '(' :: post) = _
    rw [signatureArity]
    have hall : ∀ c ∈ pre, (fun c => !(c = '(' : Bool)) c = true := by
      intro c hc
      simp only [Bool.not_eq_true']
      exact decide_eq_false fun hcc => hpre (hcc ▸ hc)
    rw [dropWhile_append_all hall, List.dropWhile_cons]
    have hparen : (fun c => !(c = '(' : Bool)) '(' = false := by simp
    rw [if_neg (by simp [hparen])]
    rw [List.filter_cons]
    have : ((('(' : Char) = '_' : Bool)) = false := by decide
    simp [this]

/-- Witness for C7: a signature with an underscore before the parenthesis and
one after it; only the one after the first `'('` is counted. -/
theorem call_handle_arity_from_signature_witness :
    (newFromSignature (['x', '_'] ++ '(' :: ['_', ')'])).argument_count
      = ((['_', ')'] : List Char).filter fun c => (c = '_' : Bool)).length :=
  (call_handle_arity_from_signature ['a'] ['x', '_'] ['_', ')']).2.2 (by decide)

/-- `Context::call`: reserves the slots, then enters the VM through
`call_unchecked` (whose raw `wrenCall` result is `vmResult`) only when
`method.get_argument_count() == Args::COUNT`; otherwise it returns
`Err(InterpretResultErrorKind::IncorrectNumberOfArgsPassed)` without calling
the VM.  The first component records whether the VM was entered. -/
def contextCall (method : CallHandle) (argsCount : Nat) (vmResult : Nat) :
    Bool × Except InterpretResultErrorKind Unit :=
  if method.get_argument_count = argsCount then
    (true, match newFromResult vmResult with
      | some e => Except.error e
      | none => Except.ok ())
  else
    (false, Except.error InterpretResultErrorKind.incorrectNumberOfArgsPassed)

/-- C8: `Context::call` enters the VM exactly when the passed argument count
equals the count recorded in the `CallHandle`; on a mismatch it returns
`IncorrectNumberOfArgsPassed` without entering the VM. -/
theorem context_call_arity_check (method : CallHandle)
    (argsCount vmResult : Nat) :
    ((contextCall method argsCount vmResult).1 = true
      ↔ method.get_argument_count = argsCount)
    ∧ (method.get_argument_count ≠ argsCount →
        contextCall method argsCount vmResult
          = (false,
              Except.error InterpretResultErrorKind.incorrectNumberOfArgsPassed)) := by
  unfold contextCall
  by_cases h : method.get_argument_count = argsCount
  · rw [if_pos h]
    exact ⟨by simp [h], fun hn => absurd h hn⟩
  · rw [if_neg h]
    exact ⟨by simp [h], fun _ => rfl⟩

/-- Witness for C8: a handle built for two arguments, called with three,
is rejected without a VM call. -/
theorem context_call_arity_check_witness :
    contextCall ⟨2⟩ 3 WREN_RESULT_SUCCESS
      = (false,
          Except.error InterpretResultErrorKind.incorrectNumberOfArgsPassed) :=
  (context_call_arity_check ⟨2⟩ 3 WREN_RESULT_SUCCESS).2 (by decide)

/-! ## Scheduler operations as primitive actions (src/modules/scheduler.rs)

Each public `Scheduler` method is modelled as the list of primitive actions
its body performs, in program order; folding the actions over a state gives
the method's effect on the scheduler-owned state (the barrier flag and the
queue).  VM interactions (`set_wren_stack`, `release_handle_unchecked`,
`_resume` on one of the captured call handles) are recorded as actions with
no effect on the scheduler state. -/

/-- The six Resumption Protocol call handles captured by `capture_methods`. -/
inductive ProtocolHandle : Type where
  | resume1
  | resume2
  | resumeError
  | resumeWaiting
  | hasNext
  | runNextScheduled
deriving DecidableEq

/-- A primitive step performed by a `Scheduler` method body. -/
inductive SchedAction (τ : Type) : Type where
  | setFlag (b : Bool)
  | insertQueue (t : τ)
  | popQueue
  | vmSetStack
  | vmReleaseHandle (fiber : Nat)
  | vmCall (h : ProtocolHandle)

/-- The scheduler-owned mutable state: the barrier flag
`has_waiting_fibers` and the task queue. -/
structure SchedulerState (τ : Type) : Type where
  has_waiting_fibers : Bool
  queue : List τ

/-- The public `Scheduler` operations. -/
inductive SchedOp (τ : Type) : Type where
  | scheduleTaskOp (t : τ)
  | nextItemOp
  | awaitAll
  | resume (fiber : Nat)
  | resumeWithArg (fiber : Nat) (hasArg : Bool)
  | resumeErrorOp (fiber : Nat)
  | resumeWaiting
  | hasNext
  | runNextScheduled

/-- Body of `Scheduler::resume_with_arg`: set up the stack (class, fiber and
possibly the argument), choosing `resume1` or `resume2` by whether an
argument is present; release the fiber handle; `_resume` the chosen method. -/
def resumeWithArgActions (τ : Type) (fiber : Nat) (hasArg : Bool) :
    List (SchedAction τ) :=
  [SchedAction.vmSetStack, SchedAction.vmReleaseHandle fiber,
    SchedAction.vmCall (if hasArg then ProtocolHandle.resume2 else ProtocolHandle.resume1)]

/-- The actions each `Scheduler` method performs, in program order.
`resume` calls `resume_with_arg` with `None`; `resume_error` calls it with
`Some(error string)`. -/
def SchedOp.actions {τ : Type} : SchedOp τ → List (SchedAction τ)
  | SchedOp.scheduleTaskOp t => [SchedAction.insertQueue t]
  | SchedOp.nextItemOp => [SchedAction.popQueue]
  | SchedOp.awaitAll => [SchedAction.setFlag true]
  | SchedOp.resume f => resumeWithArgActions τ f false
  | SchedOp.resumeWithArg f b => resumeWithArgActions τ f b
  | SchedOp.resumeErrorOp f => resumeWithArgActions τ f true
  | SchedOp.resumeWaiting =>
      [SchedAction.setFlag false, SchedAction.vmSetStack,
        SchedAction.vmCall ProtocolHandle.resumeWaiting]
  | SchedOp.hasNext =>
      [SchedAction.vmSetStack, SchedAction.vmCall ProtocolHandle.hasNext]
  | SchedOp.runNextScheduled =>
      [SchedAction.vmSetStack, SchedAction.vmCall ProtocolHandle.runNextScheduled]

/-- Effect of one primitive action on the scheduler-owned state. -/
def SchedAction.applyA {τ : Type} : SchedAction τ → SchedulerState τ → SchedulerState τ
  | SchedAction.setFlag b, s => { s with has_waiting_fibers := b }
  | SchedAction.insertQueue t, s => { s with queue := scheduleTask s.queue t }
  | SchedAction.popQueue, s => { s with queue := (nextItem s.queue).2 }
  | SchedAction.vmSetStack, s => s
  | SchedAction.vmReleaseHandle _, s => s
  | SchedAction.vmCall _, s => s

/-- Run a scheduler operation: fold its actions over the state. -/
def SchedOp.run {τ : Type} (op : SchedOp τ) (s : SchedulerState τ) : SchedulerState τ :=
  op.actions.foldl (fun st a => a.applyA st) s

/-- Whether an action is a VM call through one of the captured handles. -/
def SchedAction.isVMCall {τ : Type} : SchedAction τ → Bool
  | SchedAction.vmCall _ => true
  | _ => false

/-- C5: the barrier flag is set to `true` by `await_all` and to `false` by
`resume_waiting` and by no other scheduler operation; `await_all` changes
only the flag (queue untouched) and performs no VM call; `resume_waiting`
clears the flag before invoking the resume-waiting call handle (its action
list clears first, then sets the stack, then calls). -/
theorem barrier_flag_discipline {τ : Type} (op : SchedOp τ)
    (s : SchedulerState τ) :
    ((SchedOp.awaitAll : SchedOp τ).run s = { s with has_waiting_fibers := true })
    ∧ (∀ a ∈ (SchedOp.awaitAll : SchedOp τ).actions, a.isVMCall = false)
    ∧ ((SchedOp.resumeWaiting : SchedOp τ).actions
        = [SchedAction.setFlag false, SchedAction.vmSetStack,
            SchedAction.vmCall ProtocolHandle.resumeWaiting])
    ∧ ((op.run s).has_waiting_fibers = true →
        s.has_waiting_fibers = true ∨ op = SchedOp.awaitAll)
    ∧ ((op.run s).has_waiting_fibers = false →
        s.has_waiting_fibers = false ∨ op = SchedOp.resumeWaiting) := by
  refine ⟨rfl, ?_, rfl, ?_, ?_⟩
  · intro a ha
    simp only [SchedOp.actions, List.mem_singleton] at ha
    subst ha
    rfl
  · cases op <;>
      simp [SchedOp.run, SchedOp.actions, SchedAction.applyA, resumeWithArgActions]
  · cases op <;>
      simp [SchedOp.run, SchedOp.actions, SchedAction.applyA, resumeWithArgActions]

/-- Witness for C5: from a state with the flag down, `await_all` raises it
(and only `await_all` can); from a state with the flag up, `resume_waiting`
clears it. -/
theorem barrier_flag_discipline_witness :
    ((SchedOp.awaitAll : SchedOp Nat) = SchedOp.awaitAll
      ∨ (SchedOp.awaitAll : SchedOp Nat) = SchedOp.resumeWaiting)
    ∧ ((SchedOp.resumeWaiting : SchedOp Nat) = SchedOp.awaitAll
      ∨ (SchedOp.resumeWaiting : SchedOp Nat) = SchedOp.resumeWaiting) := by
  have h1 := barrier_flag_discipline (SchedOp.awaitAll : SchedOp Nat)
    ⟨false, []⟩
  have h2 := barrier_flag_discipline (SchedOp.resumeWaiting : SchedOp Nat)
    ⟨true, []⟩
  refine ⟨?_, ?_⟩
  · have := h1.2.2.2.1 (by rfl)
    rcases this with h | h
    · simp at h
    · exact Or.inl h
  · have := h2.2.2.2.2 (by rfl)
    rcases this with h | h
    · simp at h
    · exact Or.inr h

/-! ## Fiber handle lifecycle in the resumption operations -/

/-- Events touching VM handles, in program order. `use` is any placement of
the handle on the VM stack (`set_wren_stack`), `release` is
`release_handle_unchecked` / `wrenReleaseHandle`, `call` is the `vm.call`
inside `_resume`, and `fatal` is the panic `_resume` raises on a runtime
error (the process terminates; nothing follows it). -/
inductive HandleEvent : Type where
  | use (h : Nat)
  | release (h : Nat)
  | call (m : ProtocolHandle)
  | fatal
deriving DecidableEq

/-- Event trace of `Scheduler::resume_with_arg`: the stack is set up with the
class and the fiber handle (and the argument when present, selecting
`resume2` over `resume1`), then the fiber handle is released, then `_resume`
performs the VM call, panicking if the raw result `vmResult` is a runtime
error. -/
def resumeWithArgTrace (fiber : Nat) (hasArg : Bool) (vmResult : Nat) :
    List HandleEvent :=
  [HandleEvent.use fiber, HandleEvent.release fiber,
    HandleEvent.call (if hasArg then ProtocolHandle.resume2 else ProtocolHandle.resume1)]
  ++ (if _resume vmResult then [HandleEvent.fatal] else [])

/-- `Scheduler::resume`: `resume_with_arg` with no argument. -/
def resumeTrace (fiber : Nat) (vmResult : Nat) : List HandleEvent :=
  resumeWithArgTrace fiber false vmResult

/-- `Scheduler::resume_error`: `resume_with_arg` with the error string. -/
def resumeErrorTrace (fiber : Nat) (vmResult : Nat) : List HandleEvent :=
  resumeWithArgTrace fiber true vmResult

/-- `Handle::drop` (src/wren/handle.rs): a single `wrenReleaseHandle`. -/
def handleDropTrace (h : Nat) : List HandleEvent :=
  [HandleEvent.release h]

/-- Number of times a trace releases the handle `h`. -/
def releaseCount (tr : List HandleEvent) (h : Nat) : Nat :=
  (tr.filter fun e => e = HandleEvent.release h).length

/-- After any release of `h` in the trace, `h` is never used again. -/
def noUseAfterRelease (tr : List HandleEvent) (h : Nat) : Prop :=
  ∀ n, tr.get? n = some (HandleEvent.release h) →
    HandleEvent.use h ∉ tr.drop (n + 1)

/-- C9: in every resumption operation (`resume`, `resume_with_arg`,
`resume_error`) the fiber handle is released exactly once and never used
after the release — including when the VM call made while resuming fails
(the panic ends the trace) — and a dropped `Handle` is released exactly
once. -/
theorem fiber_handle_release_once (fiber : Nat) (hasArg : Bool)
    (vmResult : Nat) :
    releaseCount (resumeWithArgTrace fiber hasArg vmResult) fiber = 1
    ∧ noUseAfterRelease (resumeWithArgTrace fiber hasArg vmResult) fiber
    ∧ releaseCount (resumeTrace fiber vmResult) fiber = 1
    ∧ releaseCount (resumeErrorTrace fiber vmResult) fiber = 1
    ∧ releaseCount (handleDropTrace fiber) fiber = 1
    ∧ noUseAfterRelease (handleDropTrace fiber) fiber := by
  have hcount : ∀ b, releaseCount (resumeWithArgTrace fiber b vmResult) fiber = 1 := by
    intro b
    cases hr : _resume vmResult <;>
      simp [releaseCount, resumeWithArgTrace, hr, List.filter]
  have hnouse : noUseAfterRelease (resumeWithArgTrace fiber hasArg vmResult) fiber := by
    intro n hn
    cases hr : _resume vmResult with
    | false =>
      have htr : resumeWithArgTrace fiber hasArg vmResult
          = [HandleEvent.use fiber, HandleEvent.release fiber,
              HandleEvent.call
                (if hasArg then ProtocolHandle.resume2 else ProtocolHandle.resume1)] := by
        rw [resumeWithArgTrace, hr]
        simp
      rw [htr] at hn ⊢
      rcases n with _ | _ | _ | n
      · simp at hn
      · intro hmem
        simp at hmem
      · simp at hn
      · simp [List.get?] at hn
    | true =>
      have htr : resumeWithArgTrace fiber hasArg vmResult
          = [HandleEvent.use fiber, HandleEvent.release fiber,
              HandleEvent.call
                (if hasArg then ProtocolHandle.resume2 else ProtocolHandle.resume1),
              HandleEvent.fatal] := by
        rw [resumeWithArgTrace, hr]
        simp
      rw [htr] at hn ⊢
      rcases n with _ | _ | _ | _ | n
      · simp at hn
      · intro hmem
        simp at hmem
      · simp at hn
      · simp at hn
      · simp [List.get?] at hn
  refine ⟨hcount hasArg, hnouse, hcount false, hcount true, ?_, ?_⟩
  · simp [releaseCount, handleDropTrace, List.filter]
  · intro n hn
    rcases n with _ | n
    · simp [handleDropTrace, List.drop]
    · simp [handleDropTrace, List.get?] at hn

/-- Witness for C9 at a concrete fiber handle and a failing VM call: the
handle is released once, and is not used after the release event. -/
theorem fiber_handle_release_once_witness :
    releaseCount (resumeWithArgTrace 7 false WREN_RESULT_RUNTIME_ERROR) 7 = 1
    ∧ HandleEvent.use 7 ∉ (resumeWithArgTrace 7 false WREN_RESULT_RUNTIME_ERROR).drop 2 := by
  have h := fiber_handle_release_once 7 false WREN_RESULT_RUNTIME_ERROR
  exact ⟨h.1, h.2.1 1 (by rfl)⟩

/-! ## `Context::get_variable` (src/wren/context.rs) -/

/-- The VM state `get_variable` consults: which modules exist, which
variables each module has, and the handle obtained by reading a variable
into a slot and copying it out. -/
structure WrenVMState : Type where
  hasModule : String → Bool
  hasVariable : String → String → Bool
  varHandle : String → String → Nat

/-- Slot-affecting events of `get_variable`: `wrenGetVariable` writes the
variable into the slot, and `Handle::get_slot` reads the slot. -/
inductive VarEvent : Type where
  | getVar (module name : String) (slot : Nat)
  | readSlot (slot : Nat)
deriving DecidableEq

/-- `Context::get_variable`: `if !wrenHasModule(..) || !wrenHasVariable(..)
{ None } else { Some(get_variable_unchecked(..)) }`, where
`get_variable_unchecked` performs `wrenGetVariable` into the slot and reads
the handle back out of the slot.  Returns the result together with the slot
events performed. -/
def get_variable (vm : WrenVMState) (module name : String) (slot : Nat) :
    Option Nat × List VarEvent :=
  if !vm.hasModule module || !vm.hasVariable module name then
    (none, [])
  else
    (some (vm.varHandle module name),
      [VarEvent.getVar module name slot, VarEvent.readSlot slot])

/-- C10: `get_variable` returns `Some` exactly when the module exists and
contains the variable; when it returns `None` it performs no variable read
and writes nothing into the slot (no slot events at all). -/
theorem get_variable_checked (vm : WrenVMState) (module name : String)
    (slot : Nat) :
    ((get_variable vm module name slot).1.isSome
      ↔ (vm.hasModule module = true ∧ vm.hasVariable module name = true))
    ∧ ((get_variable vm module name slot).1 = none →
        (get_variable vm module name slot).2 = []) := by
  unfold get_variable
  cases hm : vm.hasModule module <;> cases hv : vm.hasVariable module name <;>
    simp

/-- Witness for C10: a VM with no modules; the lookup misses and performs no
slot event. -/
theorem get_variable_checked_witness :
    (get_variable ⟨fun _ => false, fun _ _ => false, fun _ _ => 0⟩
      "scheduler" "Scheduler" 0).2 = [] := by
  have h := get_variable_checked
    ⟨fun _ => false, fun _ _ => false, fun _ _ => 0⟩ "scheduler" "Scheduler" 0
  exact h.2 (by rfl)

end RustWren
